import Mathlib

/-!
Verification of the rule composition and evaluation engine of the
`tobbstr/rules` Go library.

The embedding models:
  * the error values of `rule.go` (`ErrNilRule`, `ErrEmptyRules`, user
    predicate errors) together with Go's `fmt.Errorf("...: %w", err)`
    wrapping, as the inductive type `Err`;
  * the rule variants `simpleRule`, `andRule`, `orRule`, `notRule`
    (`rule.go`) as the inductive family `Rule T`, where a `nil` child in a
    Go rule slice is `Option.none`;
  * `Evaluate` of each variant (`rule.go`) as `evaluate`;
  * the quantifier constructors `AtLeast` / `Exactly` / `AtMost`
    (helpers file) as simple rules wrapping counting closures, exactly as
    in the source;
  * the cross-type adapter `Map` / `mappedRule.Evaluate` (`adapter.go`);
  * the detailed evaluator `evaluateRuleDetailed` with its short-circuit
    flag, `EvaluateDetailed`, `EvaluateDetailedShortCircuit`
    (evaluator file), with `Result` modelled without the wall-clock
    `Duration` field;
  * `Result.UnsatisfiedRules`, whose implementation file is not among the
    sources, modelled from the spec.

Bookkeeping that does not affect evaluation (rule descriptions, the
registry / domain registration side effects) is omitted.
-/

namespace TobbstrRules

/-- Go error values as produced by the engine: the sentinel errors of
`rule.go`, opaque user predicate errors, and `fmt.Errorf` context
wrapping (`%w`). -/
inductive Err : Type where
  | nilRule : Err
  | emptyRules : Err
  | user (msg : String) : Err
  | wrap (ctx : String) (inner : Err) : Err
deriving DecidableEq, Repr

/-- Go's `errors.Is`: an error matches a target if it equals it or wraps
something that matches it. -/
def Err.is : Err → Err → Bool
  | e, t =>
    e == t ||
      match e with
      | .wrap _ inner => inner.is t
      | _ => false

/-- Go `%q` formatting of a rule name (escape-free approximation). -/
def goQuote (s : String) : String := "\"" ++ s ++ "\""

def ruleCtx (name : String) : String := "evaluating rule " ++ goQuote name

def andCtx (name : String) : String := "evaluating AND rule " ++ goQuote name

def orCtx (name : String) : String := "evaluating OR rule " ++ goQuote name

def notCtx (name : String) : String := "evaluating NOT rule " ++ goQuote name

def mappedCtx (name : String) : String :=
  "evaluating mapped rule " ++ goQuote name

/-- The rule variants of `rule.go`.  A Go child slice `[]Rule[T]` may hold
`nil` entries, hence children are `Option (Rule T)`; `notRule`'s single
child may likewise be `nil`.  The unused `description` field of
`simpleRule` is omitted. -/
inductive Rule (T : Type) : Type where
  | simpleRule (name : String) (predicate : T → Bool × Option Err) : Rule T
  | andRule (name : String) (rules : List (Option (Rule T))) : Rule T
  | orRule (name : String) (rules : List (Option (Rule T))) : Rule T
  | notRule (name : String) (rule : Option (Rule T)) : Rule T

/-- `Name()` of every rule variant. -/
def Rule.name {T : Type} : Rule T → String
  | .simpleRule n _ => n
  | .andRule n _ => n
  | .orRule n _ => n
  | .notRule n _ => n

mutual

/-- `Evaluate` of the four rule variants, translated from `rule.go`:
`simpleRule.Evaluate`, `andRule.Evaluate`, `orRule.Evaluate`,
`notRule.Evaluate`. -/
def evaluate {T : Type} : Rule T → T → Bool × Option Err
  | .simpleRule name predicate, input =>
    match predicate input with
    | (_, some e) => (false, some (.wrap (ruleCtx name) e))
    | (result, none) => (result, none)
  | .andRule name rules, input =>
    match rules with
    | [] => (false, some (.wrap (andCtx name) .emptyRules))
    | r :: rest => andLoop name (r :: rest) input
  | .orRule name rules, input =>
    match rules with
    | [] => (false, some (.wrap (orCtx name) .emptyRules))
    | r :: rest => orLoop name (r :: rest) input
  | .notRule name rule, input =>
    match rule with
    | none => (false, some (.wrap (notCtx name) .nilRule))
    | some r =>
      match evaluate r input with
      | (_, some e) => (false, some (.wrap (notCtx name) e))
      | (satisfied, none) => (!satisfied, none)

/-- The child loop of `andRule.Evaluate`: nil child errors, a child error
propagates wrapped, a false child short-circuits to `(false, nil)`. -/
def andLoop {T : Type} : String → List (Option (Rule T)) → T → Bool × Option Err
  | _, [], _ => (true, none)
  | name, none :: _, _ => (false, some (.wrap (andCtx name) .nilRule))
  | name, some r :: rest, input =>
    match evaluate r input with
    | (_, some e) => (false, some (.wrap (andCtx name) e))
    | (true, none) => andLoop name rest input
    | (false, none) => (false, none)

/-- The child loop of `orRule.Evaluate`: nil child errors, a child error
propagates wrapped, a satisfied child short-circuits to `(true, nil)`. -/
def orLoop {T : Type} : String → List (Option (Rule T)) → T → Bool × Option Err
  | _, [], _ => (false, none)
  | name, none :: _, _ => (false, some (.wrap (orCtx name) .nilRule))
  | name, some r :: rest, input =>
    match evaluate r input with
    | (_, some e) => (false, some (.wrap (orCtx name) e))
    | (true, none) => (true, none)
    | (false, none) => orLoop name rest input

end

/-- `New`: a simple rule from a name and a predicate. -/
def New {T : Type} (name : String) (predicate : T → Bool × Option Err) :
    Rule T :=
  .simpleRule name predicate

/-- `Always`: a rule that is always satisfied. -/
def Always {T : Type} (name : String) : Rule T :=
  New name (fun _ => (true, none))

/-- `Never`: a rule that is never satisfied. -/
def Never {T : Type} (name : String) : Rule T :=
  New name (fun _ => (false, none))

/-- `And`: the AND combinator (registry side effects omitted). -/
def And {T : Type} (name : String) (rules : List (Option (Rule T))) : Rule T :=
  .andRule name rules

/-- `Or`: the OR combinator (registry side effects omitted). -/
def Or {T : Type} (name : String) (rules : List (Option (Rule T))) : Rule T :=
  .orRule name rules

/-- `Not`: the NOT combinator (registry side effects omitted). -/
def Not {T : Type} (name : String) (rule : Option (Rule T)) : Rule T :=
  .notRule name rule

/-- The counting loop of the closure built by `AtLeast`: nil children are
skipped, a child error aborts with `(false, err)` unwrapped, a satisfied
child increments the count and returns `(true, nil)` as soon as the count
reaches `n`; once the loop finishes the count is compared with `n`. -/
def atLeastLoop {T : Type} (n : Int) (input : T) :
    List (Option (Rule T)) → Nat → Bool × Option Err
  | [], satisfied => (decide ((satisfied : Int) ≥ n), none)
  | none :: rest, satisfied => atLeastLoop n input rest satisfied
  | some r :: rest, satisfied =>
    match evaluate r input with
    | (_, some e) => (false, some e)
    | (true, none) =>
      if ((satisfied + 1 : Nat) : Int) ≥ n then (true, none)
      else atLeastLoop n input rest (satisfied + 1)
    | (false, none) => atLeastLoop n input rest satisfied

/-- `AtLeast`: a simple rule wrapping the counting closure, as in the
source (registry side effects omitted). -/
def AtLeast {T : Type} (name : String) (n : Int)
    (rules : List (Option (Rule T))) : Rule T :=
  New name (fun input => atLeastLoop n input rules 0)

/-- The counting loop of the closure built by `Exactly`: nil children are
skipped, a child error aborts with `(false, err)` unwrapped, and every
child is evaluated before the count is compared with `n`. -/
def exactlyLoop {T : Type} (n : Int) (input : T) :
    List (Option (Rule T)) → Nat → Bool × Option Err
  | [], satisfied => (decide ((satisfied : Int) = n), none)
  | none :: rest, satisfied => exactlyLoop n input rest satisfied
  | some r :: rest, satisfied =>
    match evaluate r input with
    | (_, some e) => (false, some e)
    | (true, none) => exactlyLoop n input rest (satisfied + 1)
    | (false, none) => exactlyLoop n input rest satisfied

/-- `Exactly`: a simple rule wrapping the counting closure, as in the
source (registry side effects omitted). -/
def Exactly {T : Type} (name : String) (n : Int)
    (rules : List (Option (Rule T))) : Rule T :=
  New name (fun input => exactlyLoop n input rules 0)

/-- The counting loop of the closure built by `AtMost`: nil children are
skipped, a child error aborts with `(false, err)` unwrapped, a satisfied
child increments the count and returns `(false, nil)` the moment the
count exceeds `n`; if the loop finishes the result is `(true, nil)`. -/
def atMostLoop {T : Type} (n : Int) (input : T) :
    List (Option (Rule T)) → Nat → Bool × Option Err
  | [], _ => (true, none)
  | none :: rest, satisfied => atMostLoop n input rest satisfied
  | some r :: rest, satisfied =>
    match evaluate r input with
    | (_, some e) => (false, some e)
    | (true, none) =>
      if ((satisfied + 1 : Nat) : Int) > n then (false, none)
      else atMostLoop n input rest (satisfied + 1)
    | (false, none) => atMostLoop n input rest satisfied

/-- `AtMost`: a simple rule wrapping the counting closure, as in the
source (registry side effects omitted). -/
def AtMost {T : Type} (name : String) (n : Int)
    (rules : List (Option (Rule T))) : Rule T :=
  New name (fun input => atMostLoop n input rules 0)

/-- `mappedRule` of `adapter.go`: a rule over `S` delegating to an inner
rule over `U` through a mapper; the inner rule may be `nil`. -/
structure MappedRule (S U : Type) : Type where
  name : String
  rule : Option (Rule U)
  mapper : S → U

/-- `Map` of `adapter.go`. -/
def Map {S U : Type} (name : String) (rule : Option (Rule U))
    (mapper : S → U) : MappedRule S U :=
  ⟨name, rule, mapper⟩

/-- `mappedRule.Evaluate` of `adapter.go`: a nil inner rule yields a
wrapped `NilRule` error; otherwise the input is mapped, the inner rule is
evaluated, and any inner error is wrapped with the mapped rule's name. -/
def MappedRule.evaluate {S U : Type} (r : MappedRule S U) (input : S) :
    Bool × Option Err :=
  match r.rule with
  | none => (false, some (.wrap (mappedCtx r.name) .nilRule))
  | some inner =>
    let target := r.mapper input
    match TobbstrRules.evaluate inner target with
    | (_, some e) => (false, some (.wrap (mappedCtx r.name) e))
    | (satisfied, none) => (satisfied, none)

/-- `Result` of the evaluator file, without the wall-clock `Duration`
field (timing is not modelled). -/
inductive Result : Type where
  | mk (satisfied : Bool) (ruleName : String) (error : Option Err)
      (children : List Result) : Result

def Result.satisfied : Result → Bool
  | .mk s _ _ _ => s

def Result.ruleName : Result → String
  | .mk _ n _ _ => n

def Result.error : Result → Option Err
  | .mk _ _ e _ => e

def Result.children : Result → List Result
  | .mk _ _ _ c => c

/-- `Result.IsSuccessful`. -/
def Result.isSuccessful (r : Result) : Bool :=
  r.satisfied && r.error.isNone

/-- `Result.HasError`. -/
def Result.hasError (r : Result) : Bool :=
  r.error.isSome

mutual

/-- `Evaluator.evaluateRuleDetailed` of the evaluator file: a type switch
on the concrete variant; AND/OR/NOT descend into children and compute the
parent's verdict from the already-computed child results (errors are
recorded unwrapped), while any other rule — here `simpleRule`, which also
covers the quantifier closures — is evaluated directly via `Evaluate`. -/
def evaluateRuleDetailed {T : Type} : Rule T → T → Bool → Result
  | .andRule name rules, input, shortCircuit =>
    match rules with
    | [] => .mk false name (some .emptyRules) []
    | r :: rest =>
      match andDetailedLoop input shortCircuit (r :: rest) true [] with
      | (satisfied, err, children) => .mk satisfied name err children
  | .orRule name rules, input, shortCircuit =>
    match rules with
    | [] => .mk false name (some .emptyRules) []
    | r :: rest =>
      match orDetailedLoop input shortCircuit (r :: rest) false [] with
      | (satisfied, err, children) => .mk satisfied name err children
  | .notRule name rule, input, shortCircuit =>
    match rule with
    | none => .mk false name (some .nilRule) []
    | some r =>
      let childResult := evaluateRuleDetailed r input shortCircuit
      match childResult.error with
      | some e => .mk false name (some e) [childResult]
      | none => .mk (!childResult.satisfied) name none [childResult]
  | .simpleRule name predicate, input, _ =>
    match evaluate (.simpleRule name predicate) input with
    | (satisfied, err) => .mk satisfied name err []

/-- The AND child loop of `evaluateRuleDetailed`: a nil child stops with
`ErrNilRule` before recording a result; a child result is recorded before
its error aborts the loop; an unsatisfied child clears the flag and, only
in short-circuit mode, stops the loop. -/
def andDetailedLoop {T : Type} (input : T) (shortCircuit : Bool) :
    List (Option (Rule T)) → Bool → List Result →
      Bool × Option Err × List Result
  | [], satisfied, children => (satisfied, none, children)
  | none :: _, _, children => (false, some .nilRule, children)
  | some r :: rest, satisfied, children =>
    let childResult := evaluateRuleDetailed r input shortCircuit
    let children := children ++ [childResult]
    match childResult.error with
    | some e => (false, some e, children)
    | none =>
      if childResult.satisfied then
        andDetailedLoop input shortCircuit rest satisfied children
      else if shortCircuit then (false, none, children)
      else andDetailedLoop input shortCircuit rest false children

/-- The OR child loop of `evaluateRuleDetailed`: mirror image of the AND
loop — a satisfied child sets the flag and, only in short-circuit mode,
stops the loop. -/
def orDetailedLoop {T : Type} (input : T) (shortCircuit : Bool) :
    List (Option (Rule T)) → Bool → List Result →
      Bool × Option Err × List Result
  | [], satisfied, children => (satisfied, none, children)
  | none :: _, _, children => (false, some .nilRule, children)
  | some r :: rest, satisfied, children =>
    let childResult := evaluateRuleDetailed r input shortCircuit
    let children := children ++ [childResult]
    match childResult.error with
    | some e => (false, some e, children)
    | none =>
      if childResult.satisfied then
        if shortCircuit then (true, none, children)
        else orDetailedLoop input shortCircuit rest true children
      else orDetailedLoop input shortCircuit rest satisfied children

end

/-- `Evaluator.EvaluateDetailed`: full traversal (no short-circuit). -/
def EvaluateDetailed {T : Type} (rule : Rule T) (input : T) : Result :=
  evaluateRuleDetailed rule input false

/-- `Evaluator.EvaluateDetailedShortCircuit`: short-circuit traversal. -/
def EvaluateDetailedShortCircuit {T : Type} (rule : Rule T) (input : T) :
    Result :=
  evaluateRuleDetailed rule input true

mutual

/-- Modelled from the spec: `Result.UnsatisfiedRules` is invoked by the
repository's tests and examples but its implementation file is not among
the sources.  Per the spec it "walks the result tree and collects the
names of every node, at any depth, whose `satisfied == false`, in
pre-order (parent before children), including the root if the root
failed". -/
def Result.unsatisfiedRules : Result → List String
  | .mk satisfied name _ children =>
    (if satisfied then [] else [name]) ++ unsatisfiedRulesList children

def unsatisfiedRulesList : List Result → List String
  | [] => []
  | c :: rest => c.unsatisfiedRules ++ unsatisfiedRulesList rest

end

mutual

/-- All nodes of a result tree in pre-order: each node before its
children, child subtrees left to right. -/
def Result.preorder : Result → List Result
  | .mk satisfied name err children =>
    .mk satisfied name err children :: preorderList children

def preorderList : List Result → List Result
  | [] => []
  | c :: rest => c.preorder ++ preorderList rest

end

mutual

/-- The leaf names of a rule tree in pre-order; nil children contribute
nothing.  A quantifier rule is a `simpleRule` and hence a leaf. -/
def leafNames {T : Type} : Rule T → List String
  | .simpleRule name _ => [name]
  | .andRule _ rules => leafNamesList rules
  | .orRule _ rules => leafNamesList rules
  | .notRule _ none => []
  | .notRule _ (some r) => leafNames r

def leafNamesList {T : Type} : List (Option (Rule T)) → List String
  | [] => []
  | none :: rest => leafNamesList rest
  | some r :: rest => leafNames r ++ leafNamesList rest

end

mutual

/-- Instrumentation of `evaluateRuleDetailed`: the names of the leaf
rules whose `Evaluate` (and hence whose predicate) is invoked, in
invocation order, following exactly the control flow of the detailed
evaluator — including its early exits on nil children, child errors and
short-circuiting. -/
def leafTrace {T : Type} : Rule T → T → Bool → List String
  | .simpleRule name _, _, _ => [name]
  | .andRule _ rules, input, shortCircuit =>
    match rules with
    | [] => []
    | r :: rest => andTraceLoop input shortCircuit (r :: rest)
  | .orRule _ rules, input, shortCircuit =>
    match rules with
    | [] => []
    | r :: rest => orTraceLoop input shortCircuit (r :: rest)
  | .notRule _ rule, input, shortCircuit =>
    match rule with
    | none => []
    | some r => leafTrace r input shortCircuit

def andTraceLoop {T : Type} (input : T) (shortCircuit : Bool) :
    List (Option (Rule T)) → List String
  | [] => []
  | none :: _ => []
  | some r :: rest =>
    leafTrace r input shortCircuit ++
      match (evaluateRuleDetailed r input shortCircuit).error with
      | some _ => []
      | none =>
        if (evaluateRuleDetailed r input shortCircuit).satisfied then
          andTraceLoop input shortCircuit rest
        else if shortCircuit then []
        else andTraceLoop input shortCircuit rest

def orTraceLoop {T : Type} (input : T) (shortCircuit : Bool) :
    List (Option (Rule T)) → List String
  | [] => []
  | none :: _ => []
  | some r :: rest =>
    leafTrace r input shortCircuit ++
      match (evaluateRuleDetailed r input shortCircuit).error with
      | some _ => []
      | none =>
        if (evaluateRuleDetailed r input shortCircuit).satisfied then
          if shortCircuit then []
          else orTraceLoop input shortCircuit rest
        else orTraceLoop input shortCircuit rest

end

/-- Whether a child slot holds a rule satisfied by `input` (a nil child
counts as not satisfied; used only to characterise loops). -/
def childSat {T : Type} (input : T) : Option (Rule T) → Bool
  | some r => (evaluate r input).1
  | none => false

/-- The number of non-nil children whose evaluation returns `true`. -/
def satisfiedCount {T : Type} (input : T)
    (rules : List (Option (Rule T))) : Nat :=
  rules.countP (childSat input)

/-- The detailed result of a child slot (the nil case is never reached in
the lemmas that use this). -/
def detResult {T : Type} (input : T) (shortCircuit : Bool) :
    Option (Rule T) → Result
  | some r => evaluateRuleDetailed r input shortCircuit
  | none => .mk true "" none []

/-- A rule tree built from the public constructors `New`/`And`/`Or`/`Not`
(hence with no nil children), in which every AND/OR node has at least one
child, and whose leaf predicates return no error on `input`. -/
inductive Good {T : Type} (input : T) : Rule T → Prop where
  | simpleRule (name : String) (p : T → Bool × Option Err) :
      (p input).2 = none → Good input (.simpleRule name p)
  | andRule (name : String) (rules : List (Option (Rule T))) :
      rules ≠ [] → none ∉ rules → (∀ r, some r ∈ rules → Good input r) →
      Good input (.andRule name rules)
  | orRule (name : String) (rules : List (Option (Rule T))) :
      rules ≠ [] → none ∉ rules → (∀ r, some r ∈ rules → Good input r) →
      Good input (.orRule name rules)
  | notRule (name : String) (r : Rule T) :
      Good input r → Good input (.notRule name (some r))

/-! ### Helper lemmas on the plain `Evaluate` loops -/

theorem andLoop_append_trues {T : Type} (name : String) (input : T)
    {pre : List (Option (Rule T))} (rest : List (Option (Rule T)))
    (hn : none ∉ pre)
    (h : ∀ p, some p ∈ pre → evaluate p input = (true, none)) :
    andLoop name (pre ++ rest) input = andLoop name rest input := by
  induction pre with
  | nil => rfl
  | cons o pre ih =>
    match o with
    | none => exact absurd (List.mem_cons_self _ _) hn
    | some r =>
      have hr := h r (List.mem_cons_self _ _)
      simp only [List.cons_append, andLoop, hr]
      exact ih (fun hmem => hn (List.mem_cons_of_mem _ hmem))
        (fun p hp => h p (List.mem_cons_of_mem _ hp))

theorem orLoop_append_falses {T : Type} (name : String) (input : T)
    {pre : List (Option (Rule T))} (rest : List (Option (Rule T)))
    (hn : none ∉ pre)
    (h : ∀ p, some p ∈ pre → evaluate p input = (false, none)) :
    orLoop name (pre ++ rest) input = orLoop name rest input := by
  induction pre with
  | nil => rfl
  | cons o pre ih =>
    match o with
    | none => exact absurd (List.mem_cons_self _ _) hn
    | some r =>
      have hr := h r (List.mem_cons_self _ _)
      simp only [List.cons_append, orLoop, hr]
      exact ih (fun hmem => hn (List.mem_cons_of_mem _ hmem))
        (fun p hp => h p (List.mem_cons_of_mem _ hp))

theorem andLoop_true_iff {T : Type} (name : String) (input : T)
    (rules : List (Option (Rule T))) (hn : none ∉ rules) :
    andLoop name rules input = (true, none) ↔
      ∀ r, some r ∈ rules → evaluate r input = (true, none) := by
  induction rules with
  | nil => simp [andLoop]
  | cons o rest ih =>
    match o with
    | none => exact absurd (List.mem_cons_self _ _) hn
    | some r =>
      have ih2 := ih (fun hmem => hn (List.mem_cons_of_mem _ hmem))
      constructor
      · intro hloop p hp
        rcases hev : evaluate r input with ⟨b, e⟩
        rw [andLoop, hev] at hloop
        match b, e with
        | _, some e0 => simp at hloop
        | false, none => simp at hloop
        | true, none =>
          rcases List.mem_cons.mp hp with h1 | h1
          · rw [Option.some_inj.mp h1]; exact hev
          · exact (ih2.mp hloop) p h1
      · intro hall
        have hr := hall r (List.mem_cons_self _ _)
        rw [andLoop, hr]
        exact ih2.mpr (fun p hp => hall p (List.mem_cons_of_mem _ hp))

theorem andLoop_error_false {T : Type} (name : String) (input : T)
    (rules : List (Option (Rule T))) (b : Bool) (e : Err)
    (h : andLoop name rules input = (b, some e)) : b = false := by
  induction rules with
  | nil => rw [andLoop] at h; simp at h
  | cons o rest ih =>
    match o with
    | none => rw [andLoop] at h; exact (Prod.mk.injEq .. ▸ h).1.symm
    | some r =>
      rw [andLoop] at h
      rcases hev : evaluate r input with ⟨b0, e0⟩
      rw [hev] at h
      match b0, e0 with
      | true, some e1 => injection h with h1 h2; exact h1.symm
      | false, some e1 => injection h with h1 h2; exact h1.symm
      | true, none => exact ih h
      | false, none => simp at h

theorem orLoop_error_false {T : Type} (name : String) (input : T)
    (rules : List (Option (Rule T))) (b : Bool) (e : Err)
    (h : orLoop name rules input = (b, some e)) : b = false := by
  induction rules with
  | nil => rw [orLoop] at h; simp at h
  | cons o rest ih =>
    match o with
    | none => rw [orLoop] at h; exact (Prod.mk.injEq .. ▸ h).1.symm
    | some r =>
      rw [orLoop] at h
      rcases hev : evaluate r input with ⟨b0, e0⟩
      rw [hev] at h
      match b0, e0 with
      | true, some e1 => injection h with h1 h2; exact h1.symm
      | false, some e1 => injection h with h1 h2; exact h1.symm
      | true, none => simp at h
      | false, none => exact ih h

theorem andLoop_all_spec {T : Type} (name : String) (input : T)
    (rules : List (Option (Rule T))) (hn : none ∉ rules)
    (h : ∀ r, some r ∈ rules → (evaluate r input).2 = none) :
    andLoop name rules input = (rules.all (childSat input), none) := by
  induction rules with
  | nil => simp [andLoop]
  | cons o rest ih =>
    match o with
    | none => exact absurd (List.mem_cons_self _ _) hn
    | some r =>
      have hr := h r (List.mem_cons_self _ _)
      have ih2 := ih (fun hmem => hn (List.mem_cons_of_mem _ hmem))
        (fun p hp => h p (List.mem_cons_of_mem _ hp))
      rcases hev : evaluate r input with ⟨b0, e0⟩
      rw [hev] at hr
      simp only at hr
      subst hr
      rw [andLoop, hev]
      match b0 with
      | true => simpa [List.all_cons, childSat, hev] using ih2
      | false => simp [List.all_cons, childSat, hev]

theorem orLoop_any_spec {T : Type} (name : String) (input : T)
    (rules : List (Option (Rule T))) (hn : none ∉ rules)
    (h : ∀ r, some r ∈ rules → (evaluate r input).2 = none) :
    orLoop name rules input = (rules.any (childSat input), none) := by
  induction rules with
  | nil => simp [orLoop]
  | cons o rest ih =>
    match o with
    | none => exact absurd (List.mem_cons_self _ _) hn
    | some r =>
      have hr := h r (List.mem_cons_self _ _)
      have ih2 := ih (fun hmem => hn (List.mem_cons_of_mem _ hmem))
        (fun p hp => h p (List.mem_cons_of_mem _ hp))
      rcases hev : evaluate r input with ⟨b0, e0⟩
      rw [hev] at hr
      simp only at hr
      subst hr
      rw [orLoop, hev]
      match b0 with
      | true => simp [List.any_cons, childSat, hev]
      | false => simpa [List.any_cons, childSat, hev] using ih2

/-! ### Helper lemmas on the quantifier counting loops -/

theorem atLeastLoop_spec {T : Type} (n : Int) (input : T)
    (rules : List (Option (Rule T)))
    (h : ∀ r, some r ∈ rules → (evaluate r input).2 = none) (k : Nat) :
    atLeastLoop n input rules k =
      (decide (((k + satisfiedCount input rules : Nat) : Int) ≥ n), none) := by
  induction rules generalizing k with
  | nil => simp [atLeastLoop, satisfiedCount]
  | cons o rest ih =>
    have ih2 := ih (fun p hp => h p (List.mem_cons_of_mem _ hp))
    match o with
    | none =>
      rw [atLeastLoop, ih2 k]
      simp [satisfiedCount, List.countP_cons, childSat]
    | some r =>
      have hr := h r (List.mem_cons_self _ _)
      rcases hev : evaluate r input with ⟨b0, e0⟩
      rw [hev] at hr
      simp only at hr
      subst hr
      rw [atLeastLoop, hev]
      match b0 with
      | false =>
        rw [ih2 k]
        simp [satisfiedCount, List.countP_cons, childSat, hev]
      | true =>
        by_cases hk : ((k + 1 : Nat) : Int) ≥ n
        · rw [if_pos hk]
          have : (((k + satisfiedCount input (some r :: rest) : Nat) : Int) ≥ n) := by
            simp only [satisfiedCount, List.countP_cons, childSat, hev]
            push_cast
            omega
          simp only [Prod.mk.injEq, and_true]
          exact (decide_eq_true this).symm
        · rw [if_neg hk, ih2 (k + 1)]
          have : ((k + 1 + satisfiedCount input rest : Nat) : Int)
              = ((k + satisfiedCount input (some r :: rest) : Nat) : Int) := by
            simp only [satisfiedCount, List.countP_cons, childSat, hev]
            push_cast
            omega
          rw [this]

theorem exactlyLoop_spec {T : Type} (n : Int) (input : T)
    (rules : List (Option (Rule T)))
    (h : ∀ r, some r ∈ rules → (evaluate r input).2 = none) (k : Nat) :
    exactlyLoop n input rules k =
      (decide (((k + satisfiedCount input rules : Nat) : Int) = n), none) := by
  induction rules generalizing k with
  | nil => simp [exactlyLoop, satisfiedCount]
  | cons o rest ih =>
    have ih2 := ih (fun p hp => h p (List.mem_cons_of_mem _ hp))
    match o with
    | none =>
      rw [exactlyLoop, ih2 k]
      simp [satisfiedCount, List.countP_cons, childSat]
    | some r =>
      have hr := h r (List.mem_cons_self _ _)
      rcases hev : evaluate r input with ⟨b0, e0⟩
      rw [hev] at hr
      simp only at hr
      subst hr
      rw [exactlyLoop, hev]
      match b0 with
      | false =>
        rw [ih2 k]
        simp [satisfiedCount, List.countP_cons, childSat, hev]
      | true =>
        rw [ih2 (k + 1)]
        have : ((k + 1 + satisfiedCount input rest : Nat) : Int)
            = ((k + satisfiedCount input (some r :: rest) : Nat) : Int) := by
          simp only [satisfiedCount, List.countP_cons, childSat, hev]
          push_cast
          omega
        rw [this]

theorem atMostLoop_spec {T : Type} (n : Int) (input : T)
    (rules : List (Option (Rule T)))
    (h : ∀ r, some r ∈ rules → (evaluate r input).2 = none) (k : Nat)
    (hk : ((k : Nat) : Int) ≤ n) :
    atMostLoop n input rules k =
      (decide (((k + satisfiedCount input rules : Nat) : Int) ≤ n), none) := by
  induction rules generalizing k with
  | nil =>
    rw [atMostLoop]
    simp [satisfiedCount]
    omega
  | cons o rest ih =>
    have ih2 := fun k hk =>
      ih (fun p hp => h p (List.mem_cons_of_mem _ hp)) k hk
    match o with
    | none =>
      rw [atMostLoop, ih2 k hk]
      simp [satisfiedCount, List.countP_cons, childSat]
    | some r =>
      have hr := h r (List.mem_cons_self _ _)
      rcases hev : evaluate r input with ⟨b0, e0⟩
      rw [hev] at hr
      simp only at hr
      subst hr
      rw [atMostLoop, hev]
      match b0 with
      | false =>
        rw [ih2 k hk]
        simp [satisfiedCount, List.countP_cons, childSat, hev]
      | true =>
        by_cases hgt : ((k + 1 : Nat) : Int) > n
        · rw [if_pos hgt]
          have : ¬ (((k + satisfiedCount input (some r :: rest) : Nat) : Int) ≤ n) := by
            simp only [satisfiedCount, List.countP_cons, childSat, hev]
            push_cast
            omega
          simp only [Prod.mk.injEq, and_true]
          exact (decide_eq_false this).symm
        · rw [if_neg hgt, ih2 (k + 1) (by omega)]
          have : ((k + 1 + satisfiedCount input rest : Nat) : Int)
              = ((k + satisfiedCount input (some r :: rest) : Nat) : Int) := by
            simp only [satisfiedCount, List.countP_cons, childSat, hev]
            push_cast
            omega
          rw [this]

theorem atMostLoop_neg_spec {T : Type} (n : Int) (input : T)
    (rules : List (Option (Rule T)))
    (h : ∀ r, some r ∈ rules → (evaluate r input).2 = none) (hn : n < 0) :
    atMostLoop n input rules 0 =
      (decide (satisfiedCount input rules = 0), none) := by
  induction rules with
  | nil => simp [atMostLoop, satisfiedCount]
  | cons o rest ih =>
    have ih2 := ih (fun p hp => h p (List.mem_cons_of_mem _ hp))
    match o with
    | none =>
      rw [atMostLoop, ih2]
      simp [satisfiedCount, List.countP_cons, childSat]
    | some r =>
      have hr := h r (List.mem_cons_self _ _)
      rcases hev : evaluate r input with ⟨b0, e0⟩
      rw [hev] at hr
      simp only at hr
      subst hr
      rw [atMostLoop, hev]
      match b0 with
      | false =>
        rw [ih2]
        simp [satisfiedCount, List.countP_cons, childSat, hev]
      | true =>
        rw [if_pos (by push_cast; omega)]
        have : ¬ (satisfiedCount input (some r :: rest) = 0) := by
          simp [satisfiedCount, List.countP_cons, childSat, hev]
        simp [this]

theorem exactlyLoop_error_mid {T : Type} (n : Int) (input : T)
    (pre post : List (Option (Rule T))) (c : Rule T) (e : Err)
    (hpre : ∀ r, some r ∈ pre → (evaluate r input).2 = none)
    (hc : (evaluate c input).2 = some e) (k : Nat) :
    ∃ k2, exactlyLoop n input (pre ++ some c :: post) k = (false, some e) ∧
      k ≤ k2 := by
  induction pre generalizing k with
  | nil =>
    refine ⟨k, ?_, le_rfl⟩
    rcases hev : evaluate c input with ⟨b0, e0⟩
    rw [hev] at hc
    simp only at hc
    subst hc
    rw [List.nil_append, exactlyLoop, hev]
    cases b0 <;> rfl
  | cons o pre ih =>
    have ih2 := ih (fun p hp => hpre p (List.mem_cons_of_mem _ hp))
    match o with
    | none =>
      rcases ih2 k with ⟨k2, hrun, hle⟩
      exact ⟨k2, by rw [List.cons_append, exactlyLoop]; exact hrun, hle⟩
    | some r =>
      have hr := hpre r (List.mem_cons_self _ _)
      rcases hev : evaluate r input with ⟨b0, e0⟩
      rw [hev] at hr
      simp only at hr
      subst hr
      match b0 with
      | false =>
        rcases ih2 k with ⟨k2, hrun, hle⟩
        exact ⟨k2, by rw [List.cons_append, exactlyLoop, hev]; exact hrun, hle⟩
      | true =>
        rcases ih2 (k + 1) with ⟨k2, hrun, hle⟩
        exact ⟨k2, by rw [List.cons_append, exactlyLoop, hev]; exact hrun,
          by omega⟩

/-! ### Unfolding lemmas for non-empty combinators -/

theorem evaluate_andRule_ne_nil {T : Type} (name : String) (input : T)
    (rules : List (Option (Rule T))) (h : rules ≠ []) :
    evaluate (.andRule name rules) input = andLoop name rules input := by
  cases rules with
  | nil => exact absurd rfl h
  | cons o rest => rw [evaluate]

theorem evaluate_orRule_ne_nil {T : Type} (name : String) (input : T)
    (rules : List (Option (Rule T))) (h : rules ≠ []) :
    evaluate (.orRule name rules) input = orLoop name rules input := by
  cases rules with
  | nil => exact absurd rfl h
  | cons o rest => rw [evaluate]

theorem detailed_andRule_ne_nil {T : Type} (name : String) (input : T)
    (sc : Bool) (rules : List (Option (Rule T))) (h : rules ≠ []) :
    evaluateRuleDetailed (.andRule name rules) input sc =
      match andDetailedLoop input sc rules true [] with
      | (satisfied, err, children) => .mk satisfied name err children := by
  cases rules with
  | nil => exact absurd rfl h
  | cons o rest => rw [evaluateRuleDetailed]

theorem detailed_orRule_ne_nil {T : Type} (name : String) (input : T)
    (sc : Bool) (rules : List (Option (Rule T))) (h : rules ≠ []) :
    evaluateRuleDetailed (.orRule name rules) input sc =
      match orDetailedLoop input sc rules false [] with
      | (satisfied, err, children) => .mk satisfied name err children := by
  cases rules with
  | nil => exact absurd rfl h
  | cons o rest => rw [evaluateRuleDetailed]

/-! ### Helper lemmas on the detailed evaluation loops -/

theorem andDetailedLoop_full {T : Type} (input : T)
    (rules : List (Option (Rule T))) (hn : none ∉ rules)
    (h : ∀ r, some r ∈ rules →
      (evaluateRuleDetailed r input false).error = none)
    (sat : Bool) (acc : List Result) :
    andDetailedLoop input false rules sat acc =
      (sat && rules.all (fun o => (detResult input false o).satisfied), none,
        acc ++ rules.map (detResult input false)) := by
  induction rules generalizing sat acc with
  | nil => simp [andDetailedLoop]
  | cons o rest ih =>
    match o with
    | none => exact absurd (List.mem_cons_self _ _) hn
    | some r =>
      have hr := h r (List.mem_cons_self _ _)
      have ih2 := ih (fun hmem => hn (List.mem_cons_of_mem _ hmem))
        (fun p hp => h p (List.mem_cons_of_mem _ hp))
      rw [andDetailedLoop]
      simp only [hr]
      by_cases hsat : (evaluateRuleDetailed r input false).satisfied
      · rw [if_pos hsat, ih2 sat (acc ++ [evaluateRuleDetailed r input false])]
        simp [detResult, hsat]
      · rw [if_neg hsat]
        simp only [Bool.false_eq_true, if_false,
          ih2 false (acc ++ [evaluateRuleDetailed r input false])]
        simp only [Bool.not_eq_true] at hsat
        simp [detResult, hsat]

theorem orDetailedLoop_full {T : Type} (input : T)
    (rules : List (Option (Rule T))) (hn : none ∉ rules)
    (h : ∀ r, some r ∈ rules →
      (evaluateRuleDetailed r input false).error = none)
    (sat : Bool) (acc : List Result) :
    orDetailedLoop input false rules sat acc =
      (sat || rules.any (fun o => (detResult input false o).satisfied), none,
        acc ++ rules.map (detResult input false)) := by
  induction rules generalizing sat acc with
  | nil => simp [orDetailedLoop]
  | cons o rest ih =>
    match o with
    | none => exact absurd (List.mem_cons_self _ _) hn
    | some r =>
      have hr := h r (List.mem_cons_self _ _)
      have ih2 := ih (fun hmem => hn (List.mem_cons_of_mem _ hmem))
        (fun p hp => h p (List.mem_cons_of_mem _ hp))
      rw [orDetailedLoop]
      simp only [hr]
      by_cases hsat : (evaluateRuleDetailed r input false).satisfied
      · rw [if_pos hsat]
        simp only [Bool.false_eq_true, if_false,
          ih2 true (acc ++ [evaluateRuleDetailed r input false])]
        simp [detResult, hsat]
      · rw [if_neg hsat, ih2 sat (acc ++ [evaluateRuleDetailed r input false])]
        simp only [Bool.not_eq_true] at hsat
        simp [detResult, hsat]

theorem andDetailedLoop_sc_skip_sat {T : Type} (input : T)
    {pre : List (Option (Rule T))} (rest : List (Option (Rule T)))
    (hn : none ∉ pre)
    (h : ∀ r, some r ∈ pre →
      (evaluateRuleDetailed r input true).error = none ∧
        (evaluateRuleDetailed r input true).satisfied = true)
    (sat : Bool) (acc : List Result) :
    andDetailedLoop input true (pre ++ rest) sat acc =
      andDetailedLoop input true rest sat
        (acc ++ pre.map (detResult input true)) := by
  induction pre generalizing acc with
  | nil => simp
  | cons o pre ih =>
    match o with
    | none => exact absurd (List.mem_cons_self _ _) hn
    | some r =>
      rcases h r (List.mem_cons_self _ _) with ⟨herr, hsat⟩
      rw [List.cons_append, andDetailedLoop]
      simp only [herr, hsat, if_pos]
      rw [ih (fun hmem => hn (List.mem_cons_of_mem _ hmem))
        (fun p hp => h p (List.mem_cons_of_mem _ hp))
        (acc ++ [evaluateRuleDetailed r input true])]
      simp [detResult]

theorem andDetailedLoop_sc_first_false {T : Type} (input : T)
    (post : List (Option (Rule T))) (c : Rule T)
    (herr : (evaluateRuleDetailed c input true).error = none)
    (hsat : (evaluateRuleDetailed c input true).satisfied = false)
    (sat : Bool) (acc : List Result) :
    andDetailedLoop input true (some c :: post) sat acc =
      (false, none, acc ++ [evaluateRuleDetailed c input true]) := by
  rw [andDetailedLoop]
  simp [herr, hsat]

theorem orDetailedLoop_sc_skip_unsat {T : Type} (input : T)
    {pre : List (Option (Rule T))} (rest : List (Option (Rule T)))
    (hn : none ∉ pre)
    (h : ∀ r, some r ∈ pre →
      (evaluateRuleDetailed r input true).error = none ∧
        (evaluateRuleDetailed r input true).satisfied = false)
    (sat : Bool) (acc : List Result) :
    orDetailedLoop input true (pre ++ rest) sat acc =
      orDetailedLoop input true rest sat
        (acc ++ pre.map (detResult input true)) := by
  induction pre generalizing acc with
  | nil => simp
  | cons o pre ih =>
    match o with
    | none => exact absurd (List.mem_cons_self _ _) hn
    | some r =>
      rcases h r (List.mem_cons_self _ _) with ⟨herr, hsat⟩
      rw [List.cons_append, orDetailedLoop]
      simp only [herr, hsat, Bool.false_eq_true, if_false]
      rw [ih (fun hmem => hn (List.mem_cons_of_mem _ hmem))
        (fun p hp => h p (List.mem_cons_of_mem _ hp))
        (acc ++ [evaluateRuleDetailed r input true])]
      simp [detResult]

theorem orDetailedLoop_sc_first_true {T : Type} (input : T)
    (post : List (Option (Rule T))) (c : Rule T)
    (herr : (evaluateRuleDetailed c input true).error = none)
    (hsat : (evaluateRuleDetailed c input true).satisfied = true)
    (sat : Bool) (acc : List Result) :
    orDetailedLoop input true (some c :: post) sat acc =
      (true, none, acc ++ [evaluateRuleDetailed c input true]) := by
  rw [orDetailedLoop]
  simp [herr, hsat]

theorem andTraceLoop_leaves {T : Type} (input : T)
    (rules : List (Option (Rule T))) (hn : none ∉ rules)
    (h : ∀ r, some r ∈ rules →
      (evaluateRuleDetailed r input false).error = none ∧
        leafTrace r input false = leafNames r) :
    andTraceLoop input false rules = leafNamesList rules := by
  induction rules with
  | nil => rfl
  | cons o rest ih =>
    match o with
    | none => exact absurd (List.mem_cons_self _ _) hn
    | some r =>
      rcases h r (List.mem_cons_self _ _) with ⟨herr, htr⟩
      rw [andTraceLoop, leafNamesList]
      simp only [herr, htr, Bool.false_eq_true, if_false, ite_self]
      rw [ih (fun hmem => hn (List.mem_cons_of_mem _ hmem))
        (fun p hp => h p (List.mem_cons_of_mem _ hp))]

theorem orTraceLoop_leaves {T : Type} (input : T)
    (rules : List (Option (Rule T))) (hn : none ∉ rules)
    (h : ∀ r, some r ∈ rules →
      (evaluateRuleDetailed r input false).error = none ∧
        leafTrace r input false = leafNames r) :
    orTraceLoop input false rules = leafNamesList rules := by
  induction rules with
  | nil => rfl
  | cons o rest ih =>
    match o with
    | none => exact absurd (List.mem_cons_self _ _) hn
    | some r =>
      rcases h r (List.mem_cons_self _ _) with ⟨herr, htr⟩
      rw [orTraceLoop, leafNamesList]
      simp only [herr, htr, Bool.false_eq_true, if_false, ite_self]
      rw [ih (fun hmem => hn (List.mem_cons_of_mem _ hmem))
        (fun p hp => h p (List.mem_cons_of_mem _ hp))]

theorem leafTrace_andRule_ne_nil {T : Type} (name : String) (input : T)
    (sc : Bool) (rules : List (Option (Rule T))) (h : rules ≠ []) :
    leafTrace (.andRule name rules) input sc = andTraceLoop input sc rules := by
  cases rules with
  | nil => exact absurd rfl h
  | cons o rest => rw [leafTrace]

theorem leafTrace_orRule_ne_nil {T : Type} (name : String) (input : T)
    (sc : Bool) (rules : List (Option (Rule T))) (h : rules ≠ []) :
    leafTrace (.orRule name rules) input sc = orTraceLoop input sc rules := by
  cases rules with
  | nil => exact absurd rfl h
  | cons o rest => rw [leafTrace]

theorem all_eq_of_pointwise {α : Type} {f g : α → Bool} :
    ∀ {xs : List α}, (∀ x ∈ xs, f x = g x) → xs.all f = xs.all g := by
  intro xs
  induction xs with
  | nil => exact fun _ => rfl
  | cons y ys ih =>
    intro hp
    rw [List.all_cons, List.all_cons, hp y (List.mem_cons_self _ _),
      ih (fun z hz => hp z (List.mem_cons_of_mem _ hz))]

theorem any_eq_of_pointwise {α : Type} {f g : α → Bool} :
    ∀ {xs : List α}, (∀ x ∈ xs, f x = g x) → xs.any f = xs.any g := by
  intro xs
  induction xs with
  | nil => exact fun _ => rfl
  | cons y ys ih =>
    intro hp
    rw [List.any_cons, List.any_cons, hp y (List.mem_cons_self _ _),
      ih (fun z hz => hp z (List.mem_cons_of_mem _ hz))]

/-- Master lemma for well-formed, error-free trees: plain evaluation is
error-free; detailed evaluation is error-free, agrees with plain
evaluation on the satisfied flag, and invokes exactly the tree's leaves,
in order, each once. -/
theorem good_master {T : Type} (input : T) {r : Rule T}
    (h : Good input r) :
    (evaluate r input).2 = none ∧
    (evaluateRuleDetailed r input false).error = none ∧
    (evaluateRuleDetailed r input false).satisfied = (evaluate r input).1 ∧
    leafTrace r input false = leafNames r := by
  induction h with
  | simpleRule name p hp =>
    rcases hev : p input with ⟨b0, e0⟩
    rw [hev] at hp
    simp only at hp
    subst hp
    have heval : evaluate (.simpleRule name p) input = (b0, none) := by
      rw [evaluate, hev]
    have hdet : evaluateRuleDetailed (.simpleRule name p) input false
        = .mk b0 name none [] := by
      rw [evaluateRuleDetailed, heval]
    refine ⟨by rw [heval], by rw [hdet]; rfl, by rw [hdet, heval]; rfl, rfl⟩
  | andRule name rules hne hnn hall ih =>
    have hErr : ∀ p, some p ∈ rules → (evaluate p input).2 = none :=
      fun p hp => (ih p hp).1
    have hDet : ∀ p, some p ∈ rules →
        (evaluateRuleDetailed p input false).error = none :=
      fun p hp => (ih p hp).2.1
    have heval : evaluate (.andRule name rules) input
        = (rules.all (childSat input), none) := by
      rw [evaluate_andRule_ne_nil _ _ _ hne, andLoop_all_spec _ _ _ hnn hErr]
    have hdet : evaluateRuleDetailed (.andRule name rules) input false
        = .mk (rules.all (childSat input)) name none
            (rules.map (detResult input false)) := by
      rw [detailed_andRule_ne_nil _ _ _ _ hne,
        andDetailedLoop_full _ _ hnn hDet true []]
      have : rules.all (fun o => (detResult input false o).satisfied)
          = rules.all (childSat input) := by
        refine all_eq_of_pointwise (fun o ho => ?_)
        match o with
        | none => exact absurd ho hnn
        | some p => simp [detResult, childSat, (ih p ho).2.2.1]
      simp [this]
    refine ⟨by rw [heval], by rw [hdet]; rfl, by rw [hdet, heval]; rfl, ?_⟩
    rw [leafTrace_andRule_ne_nil _ _ _ _ hne,
      andTraceLoop_leaves _ _ hnn
        (fun p hp => ⟨(ih p hp).2.1, (ih p hp).2.2.2⟩)]
    cases rules with
    | nil => exact absurd rfl hne
    | cons o rest => rw [leafNames]
  | orRule name rules hne hnn hall ih =>
    have hErr : ∀ p, some p ∈ rules → (evaluate p input).2 = none :=
      fun p hp => (ih p hp).1
    have hDet : ∀ p, some p ∈ rules →
        (evaluateRuleDetailed p input false).error = none :=
      fun p hp => (ih p hp).2.1
    have heval : evaluate (.orRule name rules) input
        = (rules.any (childSat input), none) := by
      rw [evaluate_orRule_ne_nil _ _ _ hne, orLoop_any_spec _ _ _ hnn hErr]
    have hdet : evaluateRuleDetailed (.orRule name rules) input false
        = .mk (rules.any (childSat input)) name none
            (rules.map (detResult input false)) := by
      rw [detailed_orRule_ne_nil _ _ _ _ hne,
        orDetailedLoop_full _ _ hnn hDet false []]
      have : rules.any (fun o => (detResult input false o).satisfied)
          = rules.any (childSat input) := by
        refine any_eq_of_pointwise (fun o ho => ?_)
        match o with
        | none => exact absurd ho hnn
        | some p => simp [detResult, childSat, (ih p ho).2.2.1]
      simp [this]
    refine ⟨by rw [heval], by rw [hdet]; rfl, by rw [hdet, heval]; rfl, ?_⟩
    rw [leafTrace_orRule_ne_nil _ _ _ _ hne,
      orTraceLoop_leaves _ _ hnn
        (fun p hp => ⟨(ih p hp).2.1, (ih p hp).2.2.2⟩)]
    cases rules with
    | nil => exact absurd rfl hne
    | cons o rest => rw [leafNames]
  | notRule name r hgood ih =>
    rcases ih with ⟨hErr, hDetErr, hAgree, hTrace⟩
    rcases hev : evaluate r input with ⟨b0, e0⟩
    rw [hev] at hErr
    simp only at hErr
    subst hErr
    have heval : evaluate (.notRule name (some r)) input = (!b0, none) := by
      rw [evaluate, hev]
    have hdet : evaluateRuleDetailed (.notRule name (some r)) input false
        = .mk (!(evaluateRuleDetailed r input false).satisfied) name none
            [evaluateRuleDetailed r input false] := by
      rw [evaluateRuleDetailed, hDetErr]
    refine ⟨by rw [heval], by rw [hdet]; rfl, ?_, ?_⟩
    · rw [hdet, heval]
      show (!(evaluateRuleDetailed r input false).satisfied) = !b0
      rw [hAgree, hev]
    · show leafTrace r input false = leafNames (.notRule name (some r))
      rw [hTrace, leafNames]

theorem unsat_filter_aux (n : Nat) :
    (∀ res : Result, sizeOf res ≤ n →
      res.unsatisfiedRules
        = (res.preorder.filter (fun x => !x.satisfied)).map Result.ruleName) ∧
    (∀ l : List Result, sizeOf l ≤ n →
      unsatisfiedRulesList l
        = ((preorderList l).filter (fun x => !x.satisfied)).map
            Result.ruleName) := by
  induction n with
  | zero =>
    constructor
    · intro res hres
      exfalso
      cases res with
      | mk s name e children =>
        rw [Result.mk.sizeOf_spec] at hres
        omega
    · intro l hl
      cases l with
      | nil => simp [unsatisfiedRulesList, preorderList]
      | cons c rest =>
        exfalso
        rw [List.cons.sizeOf_spec] at hl
        omega
  | succ n ih =>
    constructor
    · intro res hres
      cases res with
      | mk s name e children =>
        have hc : sizeOf children ≤ n := by
          rw [Result.mk.sizeOf_spec] at hres
          omega
        rw [Result.unsatisfiedRules, Result.preorder, ih.2 children hc]
        cases s with
        | true => simp [List.filter_cons, Result.satisfied]
        | false => simp [List.filter_cons, Result.satisfied, Result.ruleName]
    · intro l hl
      cases l with
      | nil => simp [unsatisfiedRulesList, preorderList]
      | cons c rest =>
        have h1 : sizeOf c ≤ n ∧ sizeOf rest ≤ n := by
          rw [List.cons.sizeOf_spec] at hl
          omega
        rw [unsatisfiedRulesList, preorderList, List.filter_append,
          List.map_append, ih.1 c h1.1, ih.2 rest h1.2]

theorem unsatisfiedRules_eq_filter (res : Result) :
    res.unsatisfiedRules
      = (res.preorder.filter (fun x => !x.satisfied)).map Result.ruleName :=
  (unsat_filter_aux (sizeOf res)).1 res le_rfl

/-! ### Error-to-false helper used by several claims -/

theorem evaluate_error_false {T : Type} (r : Rule T) (input : T) (b : Bool)
    (e : Err) (h : evaluate r input = (b, some e)) : b = false := by
  match r with
  | .simpleRule name p =>
    rw [evaluate] at h
    rcases hev : p input with ⟨b0, e0⟩
    rw [hev] at h
    match e0 with
    | some e1 => injection h with h1 h2; exact h1.symm
    | none => injection h with h1 h2; exact absurd h2 (by simp)
  | .andRule name rules =>
    match rules with
    | [] => rw [evaluate] at h; injection h with h1 h2; exact h1.symm
    | o :: rest =>
      rw [evaluate] at h
      exact andLoop_error_false name input (o :: rest) b e h
  | .orRule name rules =>
    match rules with
    | [] => rw [evaluate] at h; injection h with h1 h2; exact h1.symm
    | o :: rest =>
      rw [evaluate] at h
      exact orLoop_error_false name input (o :: rest) b e h
  | .notRule name rule =>
    match rule with
    | none => rw [evaluate] at h; injection h with h1 h2; exact h1.symm
    | some r0 =>
      rw [evaluate] at h
      rcases hev : evaluate r0 input with ⟨b0, e0⟩
      rw [hev] at h
      match e0 with
      | some e1 => injection h with h1 h2; exact h1.symm
      | none => injection h with h1 h2; exact absurd h2 (by simp)

theorem mapped_error_false {S U : Type} (m : MappedRule S U) (input : S)
    (b : Bool) (e : Err) (h : m.evaluate input = (b, some e)) : b = false := by
  rcases m with ⟨name, rule, mapper⟩
  match rule with
  | none =>
    rw [MappedRule.evaluate] at h
    injection h with h1 h2
    exact h1.symm
  | some inner =>
    rw [MappedRule.evaluate] at h
    simp only at h
    rcases hev : evaluate inner (mapper input) with ⟨b0, e0⟩
    rw [hev] at h
    match e0 with
    | some e1 => injection h with h1 h2; exact h1.symm
    | none => injection h with h1 h2; exact absurd h2 (by simp)

/-! ### Claims -/

/-- C8: for every input, evaluating an AND rule or an OR rule constructed
with zero children returns an error of kind `EmptyRuleSet`
(`ErrEmptyRules` wrapped with the combinator's name context) and the
boolean `false` — AND with no children is not vacuously true and OR with
no children is not vacuously false. -/
theorem c8_empty_and_or_error {T : Type} (name : String) (input : T) :
    evaluate (And name ([] : List (Option (Rule T)))) input
        = (false, some (.wrap (andCtx name) .emptyRules)) ∧
    evaluate (Or name ([] : List (Option (Rule T)))) input
        = (false, some (.wrap (orCtx name) .emptyRules)) ∧
    (Err.wrap (andCtx name) .emptyRules).is .emptyRules = true ∧
    (Err.wrap (orCtx name) .emptyRules).is .emptyRules = true := by
  refine ⟨?_, ?_, ?_, ?_⟩
  · rw [And, evaluate]
  · rw [Or, evaluate]
  · rw [Err.is]
    simp [Err.is]
  · rw [Err.is]
    simp [Err.is]

/-- C10: for every rule variant (simple, AND, OR, NOT, quantifier — all
of which are `Rule` values — and mapped) and every input, whenever
`Evaluate` returns a non-nil error its boolean component is `false`; no
`Evaluate` call ever returns `(true, non-nil error)`. -/
theorem c10_error_implies_false {T S U : Type} :
    (∀ (r : Rule T) (input : T) (b : Bool) (e : Err),
      evaluate r input = (b, some e) → b = false) ∧
    (∀ (m : MappedRule S U) (input : S) (b : Bool) (e : Err),
      m.evaluate input = (b, some e) → b = false) :=
  ⟨fun r input b e h => evaluate_error_false r input b e h,
   fun m input b e h => mapped_error_false m input b e h⟩

/-- C10 witness: a simple rule whose predicate errors evaluates to the
boolean `false`, via the claim theorem at a concrete input. -/
theorem c10_error_implies_false_witness :
    evaluate (New "boom" (fun _ : Nat => (false, some (Err.user "x")))) 0
        = (false, some (.wrap (ruleCtx "boom") (.user "x"))) ∧
    false = false :=
  have h : evaluate (New "boom" (fun _ : Nat => (false, some (Err.user "x")))) 0
      = (false, some (.wrap (ruleCtx "boom") (.user "x"))) := by
    rw [New, evaluate]
  ⟨h, (@c10_error_implies_false Nat Nat Nat).1 _ 0 false
    (.wrap (ruleCtx "boom") (.user "x")) h⟩

/-- C1: for every AND rule with a non-empty list of non-nil children and
every input, `Evaluate` returns `(true, nil)` iff every child's
`Evaluate` returns `(true, nil)`; children are evaluated in declared
sequence order: after a prefix of satisfied children, a child returning
`(false, nil)` makes the AND return `(false, nil)` whatever the later
children are (so no later child is invoked), and a child error `e` makes
the AND return the wrapped error immediately, again whatever the later
children are. -/
theorem c1_and_evaluate_semantics {T : Type} (name : String) (input : T) :
    (∀ rules : List (Option (Rule T)), rules ≠ [] → none ∉ rules →
      (evaluate (And name rules) input = (true, none) ↔
        ∀ r, some r ∈ rules → evaluate r input = (true, none))) ∧
    (∀ (pre post : List (Option (Rule T))) (c : Rule T), none ∉ pre →
      (∀ p, some p ∈ pre → evaluate p input = (true, none)) →
      evaluate c input = (false, none) →
      evaluate (And name (pre ++ some c :: post)) input = (false, none)) ∧
    (∀ (pre post : List (Option (Rule T))) (c : Rule T) (b : Bool) (e : Err),
      none ∉ pre →
      (∀ p, some p ∈ pre → evaluate p input = (true, none)) →
      evaluate c input = (b, some e) →
      evaluate (And name (pre ++ some c :: post)) input
        = (false, some (.wrap (andCtx name) e))) := by
  refine ⟨?_, ?_, ?_⟩
  · intro rules hne hnn
    rw [And, evaluate_andRule_ne_nil _ _ _ hne]
    exact andLoop_true_iff name input rules hnn
  · intro pre post c hnn hpre hc
    rw [And, evaluate_andRule_ne_nil _ _ _ (by simp),
      andLoop_append_trues name input _ hnn hpre, andLoop, hc]
  · intro pre post c b e hnn hpre hc
    rw [And, evaluate_andRule_ne_nil _ _ _ (by simp),
      andLoop_append_trues name input _ hnn hpre, andLoop, hc]
    have hb := evaluate_error_false c input b e hc
    subst hb
    rfl

/-- C1 witness: a two-child AND at a concrete input, exercising the iff
and, with a false first child and an erroring second child, the
first-false short-circuit clause (the erroring later child is never
consulted). -/
theorem c1_and_evaluate_semantics_witness :
    evaluate (And "a" [some (Always "t1")]) (0 : Nat) = (true, none) ∧
    evaluate
        (And "a" [some (Never "f"),
          some (New "boom" (fun _ : Nat => (false, some (Err.user "x"))))])
        (0 : Nat) = (false, none) := by
  constructor
  · refine ((c1_and_evaluate_semantics "a" (0 : Nat)).1
      [some (Always "t1")] (by simp) (by simp)).mpr ?_
    intro r hr
    have h1 : r = Always "t1" := by
      have h2 := List.mem_singleton.mp hr
      injection h2
    subst h1
    rw [Always, New, evaluate]
  · refine (c1_and_evaluate_semantics "a" (0 : Nat)).2.1 []
      [some (New "boom" (fun _ : Nat => (false, some (Err.user "x"))))]
      (Never "f") (by simp) (by simp) ?_
    rw [Never, New, evaluate]

/-- C7 counterexample: `And("x", neverRule, nil)` — a children list that
contains a nil entry — evaluates to `(false, nil)` with no error at all,
because the false child before the nil entry short-circuits; the claim
that every AND with a nil entry returns a NilRule error is therefore
false. -/
theorem c7_and_nil_after_false_counterexample :
    evaluate (And "x" [some (Never "f"), none]) (0 : Nat) = (false, none) ∧
    (evaluate (And "x" [some (Never "f"), none]) (0 : Nat)).2 = none := by
  have h : evaluate (And "x" [some (Never "f"), none]) (0 : Nat)
      = (false, none) := by
    rw [And, evaluate, andLoop]
    rw [show evaluate (Never "f") (0 : Nat) = (false, none) from by
      rw [Never, New, evaluate]]
  exact ⟨h, by rw [h]⟩

/-- C7 (amended): an AND whose children preceding the first nil entry all
evaluate to `(true, nil)` returns a NilRule error when it reaches the nil
entry, whereas `AtLeast` treats nil children as absent: removing a nil
child never changes its result, and when all its non-nil children
evaluate error-free, `AtLeast` returns no error, counting only the
non-nil satisfied children. -/
theorem c7_nil_child_and_vs_atLeast {T : Type} (name : String) (input : T) :
    (∀ (pre post : List (Option (Rule T))), none ∉ pre →
      (∀ p, some p ∈ pre → evaluate p input = (true, none)) →
      evaluate (And name (pre ++ none :: post)) input
        = (false, some (.wrap (andCtx name) .nilRule))) ∧
    (∀ (n : Int) (l1 l2 : List (Option (Rule T))),
      evaluate (AtLeast name n (l1 ++ none :: l2)) input
        = evaluate (AtLeast name n (l1 ++ l2)) input) ∧
    (∀ (n : Int) (rules : List (Option (Rule T))),
      (∀ r, some r ∈ rules → (evaluate r input).2 = none) →
      evaluate (AtLeast name n rules) input
        = (decide (((satisfiedCount input rules : Nat) : Int) ≥ n), none)) := by
  refine ⟨?_, ?_, ?_⟩
  · intro pre post hnn hpre
    rw [And, evaluate_andRule_ne_nil _ _ _ (by simp),
      andLoop_append_trues name input _ hnn hpre, andLoop]
  · intro n l1 l2
    have key : ∀ k, atLeastLoop n input (l1 ++ none :: l2) k
        = atLeastLoop n input (l1 ++ l2) k := by
      induction l1 with
      | nil => intro k; rw [List.nil_append, atLeastLoop, List.nil_append]
      | cons o l1 ih =>
        intro k
        match o with
        | none =>
          rw [List.cons_append, atLeastLoop, List.cons_append, atLeastLoop]
          exact ih k
        | some r =>
          rw [List.cons_append, atLeastLoop, List.cons_append, atLeastLoop]
          rcases evaluate r input with ⟨b0, e0⟩
          match b0, e0 with
          | true, some e1 => rfl
          | false, some e1 => rfl
          | true, none => simp only; split <;> [rfl; exact ih (k + 1)]
          | false, none => exact ih k
    rw [AtLeast, AtLeast, New, New, evaluate, evaluate, key 0]
  · intro n rules h
    rw [AtLeast, New, evaluate]
    rw [atLeastLoop_spec n input rules h 0]
    simp

/-- C7 witness: with an always-true child before the nil entry the AND
errors with NilRule, while `AtLeast("x", 1, valid, nil)` over the same
shape returns `(true, nil)` — the nil child is skipped. -/
theorem c7_nil_child_and_vs_atLeast_witness :
    evaluate (And "x" [some (Always "valid"), none]) (0 : Nat)
        = (false, some (.wrap (andCtx "x") .nilRule)) ∧
    evaluate (AtLeast "x" 1 [some (Always "valid"), none]) (0 : Nat)
        = (true, none) := by
  constructor
  · refine (c7_nil_child_and_vs_atLeast "x" (0 : Nat)).1
      [some (Always "valid")] [] (by simp) ?_
    intro p hp
    rcases List.mem_singleton.mp hp with h2
    cases Option.some_inj.mp h2.symm
    rw [Always, New, evaluate]
  · have hmem : ∀ r : Rule Nat, some r ∈ [some (Always "valid"), none] →
        (evaluate r (0 : Nat)).2 = none := by
      intro r hr
      simp only [List.mem_cons, List.not_mem_nil, or_false,
        reduceCtorEq] at hr
      have h1 : r = Always "valid" := by injection hr
      subst h1
      rw [Always, New, evaluate]
    have h := (c7_nil_child_and_vs_atLeast "x" (0 : Nat)).2.2 1
      [some (Always "valid"), none] hmem
    rw [h]
    rw [show satisfiedCount (0 : Nat) [some (Always "valid"), none] = 1 from by
      simp [satisfiedCount, List.countP_cons, childSat, Always, New, evaluate]]
    rfl

/-- C4 counterexample: `AtMost("x", -1, neverRule)` evaluates to
`(true, nil)` although the satisfied count is `0` and `0 ≤ -1` is false —
so `AtMost` does not return `(count ≤ n, nil)` for every integer
threshold: with a negative `n` and no satisfied child the final
`return true` of the loop is reached without the count ever being
compared to `n`. -/
theorem c4_atMost_negative_counterexample :
    evaluate (AtMost "x" (-1) [some (Never "f")]) (0 : Nat) = (true, none) ∧
    satisfiedCount (0 : Nat) [some (Never "f")] = 0 ∧
    decide (((satisfiedCount (0 : Nat) [some (Never "f")] : Nat) : Int)
        ≤ (-1 : Int)) = false := by
  have hc : satisfiedCount (0 : Nat) [some (Never "f")] = 0 := by
    simp [satisfiedCount, List.countP_cons, childSat, Never, New, evaluate]
  refine ⟨?_, hc, by rw [hc]; rfl⟩
  rw [AtMost, New, evaluate, atMostLoop]
  rw [show evaluate (Never "f") (0 : Nat) = (false, none) from by
    rw [Never, New, evaluate]]
  simp [atMostLoop]

/-- C4 (amended): for every input and children list whose non-nil members
evaluate without error, with `count` the number of non-nil children whose
evaluation returned `true` (nil children skipped as absent): `AtLeast`
returns exactly `(count ≥ n, nil)` and `Exactly` exactly
`(count = n, nil)` for every integer `n`; `AtMost` returns
`(count ≤ n, nil)` for every `n ≥ 0`, and for `n < 0` it returns
`(count = 0, nil)`.  `Exactly` evaluates all non-nil children with no
early exit: a child error propagates (wrapped with the rule name by the
enclosing simple rule) even when children after it remain. -/
theorem c4_quantifier_counting {T : Type} (name : String) (input : T)
    (n : Int) (rules : List (Option (Rule T)))
    (h : ∀ r, some r ∈ rules → (evaluate r input).2 = none) :
    evaluate (AtLeast name n rules) input
        = (decide (((satisfiedCount input rules : Nat) : Int) ≥ n), none) ∧
    evaluate (Exactly name n rules) input
        = (decide (((satisfiedCount input rules : Nat) : Int) = n), none) ∧
    (0 ≤ n → evaluate (AtMost name n rules) input
        = (decide (((satisfiedCount input rules : Nat) : Int) ≤ n), none)) ∧
    (n < 0 → evaluate (AtMost name n rules) input
        = (decide (satisfiedCount input rules = 0), none)) ∧
    (∀ (pre post : List (Option (Rule T))) (c : Rule T) (e : Err),
      (∀ p, some p ∈ pre → (evaluate p input).2 = none) →
      (evaluate c input).2 = some e →
      evaluate (Exactly name n (pre ++ some c :: post)) input
        = (false, some (.wrap (ruleCtx name) e))) := by
  refine ⟨?_, ?_, ?_, ?_, ?_⟩
  · rw [AtLeast, New, evaluate, atLeastLoop_spec n input rules h 0]
    simp
  · rw [Exactly, New, evaluate, exactlyLoop_spec n input rules h 0]
    simp
  · intro hn
    rw [AtMost, New, evaluate,
      atMostLoop_spec n input rules h 0 (by exact_mod_cast hn)]
    simp
  · intro hn
    rw [AtMost, New, evaluate, atMostLoop_neg_spec n input rules h hn]
  · intro pre post c e hpre hc
    rcases hev : evaluate c input with ⟨b0, e0⟩
    rw [hev] at hc
    simp only at hc
    subst hc
    rcases exactlyLoop_error_mid n input pre post c e hpre
      (by rw [hev]) 0 with ⟨k2, hrun, _⟩
    rw [Exactly, New, evaluate, hrun]

/-- C4 witness: the quantifier boundary cases of the spec —
`AtLeast("x", 2, t, t, f)` true, `Exactly("x", 2, t, t, f)` true,
`Exactly("x", 3, t, t, f)` false, `AtMost("x", 1, t, t, f)` false — via
the claim theorem at the concrete children. -/
theorem c4_quantifier_counting_witness :
    evaluate (AtLeast "x" 2
        [some (Always "t1"), some (Always "t2"), some (Never "f")])
        (0 : Nat) = (true, none) ∧
    evaluate (Exactly "x" 2
        [some (Always "t1"), some (Always "t2"), some (Never "f")])
        (0 : Nat) = (true, none) ∧
    evaluate (Exactly "x" 3
        [some (Always "t1"), some (Always "t2"), some (Never "f")])
        (0 : Nat) = (false, none) ∧
    evaluate (AtMost "x" 1
        [some (Always "t1"), some (Always "t2"), some (Never "f")])
        (0 : Nat) = (false, none) := by
  have hmem : ∀ r : Rule Nat,
      some r ∈ [some (Always "t1"), some (Always "t2"), some (Never "f")] →
      (evaluate r (0 : Nat)).2 = none := by
    intro r hr
    simp only [List.mem_cons, List.not_mem_nil, or_false] at hr
    rcases hr with h1 | h1 | h1
    · have h2 : r = Always "t1" := by injection h1
      subst h2
      rw [Always, New, evaluate]
    · have h2 : r = Always "t2" := by injection h1
      subst h2
      rw [Always, New, evaluate]
    · have h2 : r = Never "f" := by injection h1
      subst h2
      rw [Never, New, evaluate]
  have hcount : satisfiedCount (0 : Nat)
      [some (Always "t1"), some (Always "t2"), some (Never "f")] = 2 := by
    simp [satisfiedCount, List.countP_cons, childSat, Always, Never, New,
      evaluate]
  refine ⟨?_, ?_, ?_, ?_⟩
  · rw [(c4_quantifier_counting "x" (0 : Nat) 2 _ hmem).1, hcount]
    rfl
  · rw [(c4_quantifier_counting "x" (0 : Nat) 2 _ hmem).2.1, hcount]
    rfl
  · rw [(c4_quantifier_counting "x" (0 : Nat) 3 _ hmem).2.1, hcount]
    rfl
  · rw [(c4_quantifier_counting "x" (0 : Nat) 1 _ hmem).2.2.1 (by omega),
      hcount]
    rfl

/-- C5 counterexample: for an inner rule whose predicate errors, the
mapped rule's result is not equal to the inner rule's result — the inner
error surfaces wrapped with the mapped rule's name, not identically. -/
theorem c5_map_error_counterexample :
    MappedRule.evaluate
        (Map "m" (some (New "inner"
          (fun _ : Nat => (false, some (Err.user "boom")))))
          (fun v : Nat => v)) 0
      ≠ evaluate
          (New "inner" (fun _ : Nat => (false, some (Err.user "boom"))))
          ((fun v : Nat => v) 0) := by
  have hinner : evaluate
      (New "inner" (fun _ : Nat => (false, some (Err.user "boom")))) 0
      = (false, some (.wrap (ruleCtx "inner") (.user "boom"))) := by
    rw [New, evaluate]
  have hmap : MappedRule.evaluate
      (Map "m" (some (New "inner"
        (fun _ : Nat => (false, some (Err.user "boom")))))
        (fun v : Nat => v)) 0
      = (false, some (.wrap (mappedCtx "m")
          (.wrap (ruleCtx "inner") (.user "boom")))) := by
    rw [Map, MappedRule.evaluate]
    simp only
    rw [hinner]
  rw [hmap, hinner]
  simp [mappedCtx, ruleCtx, goQuote]

/-- C5 (amended): `Map(name, innerRule, extract).Evaluate(s)` returns the
same boolean as `innerRule.Evaluate(extract(s))` for every `s`; when the
inner evaluation returns no error the two results are identical
(boolean and nil error), and when the inner evaluation returns error `e`
the mapped rule returns `(false, e wrapped with the mapped rule's
name)`. -/
theorem c5_map_round_trip {S U : Type} (name : String) (inner : Rule U)
    (mapper : S → U) (input : S) :
    ((Map name (some inner) mapper).evaluate input).1
        = (evaluate inner (mapper input)).1 ∧
    ((evaluate inner (mapper input)).2 = none →
      (Map name (some inner) mapper).evaluate input
        = evaluate inner (mapper input)) ∧
    (∀ e, (evaluate inner (mapper input)).2 = some e →
      (Map name (some inner) mapper).evaluate input
        = (false, some (.wrap (mappedCtx name) e))) := by
  rcases hev : evaluate inner (mapper input) with ⟨b0, e0⟩
  match e0 with
  | none =>
    have hmap : (Map name (some inner) mapper).evaluate input = (b0, none) := by
      rw [Map, MappedRule.evaluate]
      simp only
      rw [hev]
    exact ⟨by rw [hmap], fun _ => by rw [hmap], fun e he => by simp at he⟩
  | some e1 =>
    have hb0 : b0 = false := evaluate_error_false inner (mapper input) b0 e1 hev
    subst hb0
    have hmap : (Map name (some inner) mapper).evaluate input
        = (false, some (.wrap (mappedCtx name) e1)) := by
      rw [Map, MappedRule.evaluate]
      simp only
      rw [hev]
    refine ⟨by rw [hmap], fun hnone => by simp at hnone, fun e he => ?_⟩
    have he1 : e1 = e := by injection he
    subst he1
    rw [hmap]

/-- C5 witness: the error-free round trip at a concrete input — the
mapped rule's result is identical to the inner rule's result on the
mapped input. -/
theorem c5_map_round_trip_witness :
    (Map "m" (some (Always "t")) (fun v : Nat => v + 1)).evaluate 41
      = evaluate (Always "t") ((fun v : Nat => v + 1) 41) :=
  (c5_map_round_trip "m" (Always "t") (fun v : Nat => v + 1) 41).2.1
    (by rw [Always, New, evaluate])

/-- C6 counterexample: `AtLeast("x", 0, errRule)` does not return
`(true, nil)` — the erroring child is evaluated before any comparison
with the threshold and its error propagates, so threshold `0` is not
trivially true for every children list. -/
theorem c6_atLeast_zero_error_counterexample :
    evaluate (AtLeast "x" 0
        [some (New "err" (fun _ : Nat => (false, some (Err.user "boom"))))])
        (0 : Nat)
      = (false, some (.wrap (ruleCtx "x")
          (.wrap (ruleCtx "err") (.user "boom")))) ∧
    evaluate (AtLeast "x" 0
        [some (New "err" (fun _ : Nat => (false, some (Err.user "boom"))))])
        (0 : Nat) ≠ (true, none) := by
  have herr : evaluate
      (New "err" (fun _ : Nat => (false, some (Err.user "boom")))) (0 : Nat)
      = (false, some (.wrap (ruleCtx "err") (.user "boom"))) := by
    rw [New, evaluate]
  have h : evaluate (AtLeast "x" 0
      [some (New "err" (fun _ : Nat => (false, some (Err.user "boom"))))])
      (0 : Nat)
      = (false, some (.wrap (ruleCtx "x")
          (.wrap (ruleCtx "err") (.user "boom")))) := by
    rw [AtLeast, New, evaluate, atLeastLoop, herr]
  exact ⟨h, by rw [h]; simp⟩

/-- C6 (amended): `AtLeast` with threshold `n = 0` returns `(true, nil)`
for every input and every children list whose non-nil children evaluate
without error — in particular for no children, for all-nil children, and
for any mix of nil and error-free children. -/
theorem c6_atLeast_zero_trivially_true {T : Type} (name : String)
    (input : T) (rules : List (Option (Rule T)))
    (h : ∀ r, some r ∈ rules → (evaluate r input).2 = none) :
    evaluate (AtLeast name 0 rules) input = (true, none) := by
  rw [AtLeast, New, evaluate, atLeastLoop_spec 0 input rules h 0]
  simp

/-- C6 witness: threshold `0` over no children, over an all-nil list and
over a mixed list with a false child, all `(true, nil)`, via the claim
theorem. -/
theorem c6_atLeast_zero_trivially_true_witness :
    evaluate (AtLeast "x" 0 ([] : List (Option (Rule Nat)))) 0
        = (true, none) ∧
    evaluate (AtLeast "x" 0 ([none, none] : List (Option (Rule Nat)))) 0
        = (true, none) ∧
    evaluate (AtLeast "x" 0 [none, some (Never "f")]) (0 : Nat)
        = (true, none) := by
  refine ⟨c6_atLeast_zero_trivially_true "x" 0 [] (by simp),
    c6_atLeast_zero_trivially_true "x" 0 [none, none] (by simp),
    c6_atLeast_zero_trivially_true "x" 0 [none, some (Never "f")] ?_⟩
  intro r hr
  simp only [List.mem_cons, List.not_mem_nil, or_false, reduceCtorEq,
    false_or] at hr
  have h1 : r = Never "f" := by injection hr
  subst h1
  rw [Never, New, evaluate]

/-- C2 counterexample: the tree `And("p", And("e"), New("leaf", ...))` is
built from `And`/`New` with a predicate that never errors, yet
`EvaluateDetailed` never invokes the `leaf` predicate — the empty inner
AND produces an `EmptyRuleSet` error that aborts the parent loop before
the leaf — so "invokes each leaf predicate exactly once" fails as stated
without a non-empty-children proviso. -/
theorem c2_empty_and_counterexample :
    leafTrace (And "p" [some (And "e" ([] : List (Option (Rule Nat)))),
        some (New "leaf" (fun _ => (true, none)))]) 0 false = [] ∧
    leafNames (And "p" [some (And "e" ([] : List (Option (Rule Nat)))),
        some (New "leaf" (fun _ => (true, none)))]) = ["leaf"] := by
  constructor
  · simp [leafTrace, andTraceLoop, evaluateRuleDetailed, And, New,
      Result.error]
  · simp [leafNames, leafNamesList, And, New]

/-- C2 (amended): for every rule tree built from `New`/`And`/`Or`/`Not`
in which every AND/OR node has at least one child and whose predicates
return no error on the given input, `EvaluateDetailed` invokes each leaf
predicate exactly once — the invocation trace equals the tree's leaf
list — and the root result's satisfied flag (aggregated from the child
results) equals the boolean returned by `Evaluate` on the root. -/
theorem c2_no_double_evaluation {T : Type} (r : Rule T) (input : T)
    (h : Good input r) :
    leafTrace r input false = leafNames r ∧
    (EvaluateDetailed r input).error = none ∧
    (EvaluateDetailed r input).satisfied = (evaluate r input).1 := by
  rcases good_master input h with ⟨h1, h2, h3, h4⟩
  exact ⟨h4, h2, h3⟩

/-- C2 witness: a two-leaf AND at a concrete input, via the claim
theorem. -/
theorem c2_no_double_evaluation_witness :
    leafTrace (And "root" [some (Always "t"), some (Never "f")])
          (0 : Nat) false
        = leafNames (And "root"
            ([some (Always "t"), some (Never "f")]
              : List (Option (Rule Nat)))) ∧
    (EvaluateDetailed (And "root" [some (Always "t"), some (Never "f")])
          (0 : Nat)).error = none ∧
    (EvaluateDetailed (And "root" [some (Always "t"), some (Never "f")])
          (0 : Nat)).satisfied
        = (evaluate (And "root" [some (Always "t"), some (Never "f")])
            (0 : Nat)).1 := by
  refine c2_no_double_evaluation _ 0 (Good.andRule "root" _ (by simp)
    (by simp) ?_)
  intro r hr
  simp only [List.mem_cons, List.not_mem_nil, or_false] at hr
  rcases hr with h1 | h1
  · have h2 : r = Always "t" := by injection h1
    subst h2
    exact Good.simpleRule "t" _ rfl
  · have h2 : r = Never "f" := by injection h1
    subst h2
    exact Good.simpleRule "f" _ rfl

/-- C3: for an AND of three children that all evaluate to `false` without
error, `EvaluateDetailed` records all 3 child results while
`EvaluateDetailedShortCircuit` records exactly 1; in general, with
non-nil children whose detailed evaluations are error-free, detailed
mode records every child of an AND even after failures, and short-circuit
mode records exactly the satisfied prefix plus the first failing child
(for OR: the unsatisfied prefix plus the first satisfied child). -/
theorem c3_detailed_vs_short_circuit {T : Type} :
    ((EvaluateDetailed (And "x"
        [some (New "fail1" (fun _ : Nat => (false, none))),
          some (New "fail2" (fun _ : Nat => (false, none))),
          some (New "fail3" (fun _ : Nat => (false, none)))])
        0).children.length = 3 ∧
      (EvaluateDetailedShortCircuit (And "x"
        [some (New "fail1" (fun _ : Nat => (false, none))),
          some (New "fail2" (fun _ : Nat => (false, none))),
          some (New "fail3" (fun _ : Nat => (false, none)))])
        0).children.length = 1) ∧
    (∀ (name : String) (input : T) (rules : List (Option (Rule T))),
      none ∉ rules →
      (∀ r, some r ∈ rules →
        (evaluateRuleDetailed r input false).error = none) →
      (EvaluateDetailed (And name rules) input).children.length
        = rules.length) ∧
    (∀ (name : String) (input : T) (pre post : List (Option (Rule T)))
        (c : Rule T),
      none ∉ pre →
      (∀ p, some p ∈ pre →
        (evaluateRuleDetailed p input true).error = none ∧
          (evaluateRuleDetailed p input true).satisfied = true) →
      (evaluateRuleDetailed c input true).error = none →
      (evaluateRuleDetailed c input true).satisfied = false →
      (EvaluateDetailedShortCircuit (And name (pre ++ some c :: post))
          input).children.length = pre.length + 1) ∧
    (∀ (name : String) (input : T) (pre post : List (Option (Rule T)))
        (c : Rule T),
      none ∉ pre →
      (∀ p, some p ∈ pre →
        (evaluateRuleDetailed p input true).error = none ∧
          (evaluateRuleDetailed p input true).satisfied = false) →
      (evaluateRuleDetailed c input true).error = none →
      (evaluateRuleDetailed c input true).satisfied = true →
      (EvaluateDetailedShortCircuit (Or name (pre ++ some c :: post))
          input).children.length = pre.length + 1) := by
  refine ⟨⟨?_, ?_⟩, ?_, ?_, ?_⟩
  · simp [EvaluateDetailed, evaluateRuleDetailed, andDetailedLoop,
      evaluate, New, And, Result.children, Result.error, Result.satisfied]
  · simp [EvaluateDetailedShortCircuit, evaluateRuleDetailed,
      andDetailedLoop, evaluate, New, And, Result.children, Result.error,
      Result.satisfied]
  · intro name input rules hnn h
    match rules with
    | [] =>
      simp [EvaluateDetailed, And, evaluateRuleDetailed, Result.children]
    | o :: rest =>
      rw [EvaluateDetailed, And, detailed_andRule_ne_nil _ _ _ _ (by simp),
        andDetailedLoop_full input (o :: rest) hnn h true []]
      simp [Result.children]
  · intro name input pre post c hnn hpre herr hsat
    rw [EvaluateDetailedShortCircuit, And,
      detailed_andRule_ne_nil _ _ _ _ (by simp),
      andDetailedLoop_sc_skip_sat input (some c :: post) hnn hpre true [],
      andDetailedLoop_sc_first_false input post c herr hsat true _]
    simp [Result.children]
  · intro name input pre post c hnn hpre herr hsat
    rw [EvaluateDetailedShortCircuit, Or,
      detailed_orRule_ne_nil _ _ _ _ (by simp),
      orDetailedLoop_sc_skip_unsat input (some c :: post) hnn hpre false [],
      orDetailedLoop_sc_first_true input post c herr hsat false _]
    simp [Result.children]

/-- C3 witness: the general clauses at concrete trees — an AND of one
error-free child records that one child in detailed mode, and with an
empty satisfied prefix an AND whose first child fails records exactly one
child in short-circuit mode. -/
theorem c3_detailed_vs_short_circuit_witness :
    (Result.children
        (EvaluateDetailed (And "w" [some (Always "t")]) (0 : Nat))).length
      = 1 ∧
    (Result.children (EvaluateDetailedShortCircuit
        (And "w" [some (Never "f"), some (Always "t")])
        (0 : Nat))).length = 0 + 1 := by
  have hdetT : evaluateRuleDetailed (Always "t") (0 : Nat) false
      = .mk true "t" none [] := by
    rw [Always, New, evaluateRuleDetailed]
    rw [show evaluate (Rule.simpleRule "t"
        (fun _ : Nat => (true, none))) 0 = (true, none) from by
      rw [evaluate]]
  have hdetF : evaluateRuleDetailed (Never "f") (0 : Nat) true
      = .mk false "f" none [] := by
    rw [Never, New, evaluateRuleDetailed]
    rw [show evaluate (Rule.simpleRule "f"
        (fun _ : Nat => (false, none))) 0 = (false, none) from by
      rw [evaluate]]
  constructor
  · refine (@c3_detailed_vs_short_circuit Nat).2.1 "w" 0
      [some (Always "t")] (by simp) ?_
    intro r hr
    have h1 : r = Always "t" := by
      have h2 := List.mem_singleton.mp hr
      injection h2
    subst h1
    rw [hdetT]
    rfl
  · exact (@c3_detailed_vs_short_circuit Nat).2.2.1 "w" 0 [] [some (Always "t")]
      (Never "f") (by simp) (by simp) (by rw [hdetF]; rfl) (by rw [hdetF]; rfl)

/-- C9: for every result tree produced by the detailed evaluator (in
either mode), `Result.UnsatisfiedRules` returns the names of exactly
those result nodes, at any depth, whose satisfied flag is false, in
pre-order — parent before children, subtrees left to right — including
the root's name when the root is unsatisfied; checked also against the
repository's own nested test case
`And("outer", And("inner", value>10, value<100), valid)` on
`{value: 5, valid: false}`. -/
theorem c9_unsatisfiedRules_preorder {T : Type} :
    (∀ (rule : Rule T) (input : T) (sc : Bool),
      (evaluateRuleDetailed rule input sc).unsatisfiedRules
        = (((evaluateRuleDetailed rule input sc).preorder).filter
            (fun x => !x.satisfied)).map Result.ruleName) ∧
    (EvaluateDetailed
        (And "outer" [some (And "inner"
          [some (New "value > 10"
            (fun p : Int × Bool => (decide (p.1 > 10), none))),
           some (New "value < 100"
            (fun p : Int × Bool => (decide (p.1 < 100), none)))]),
          some (New "valid" (fun p : Int × Bool => (p.2, none)))])
        (5, false)).unsatisfiedRules
      = ["outer", "inner", "value > 10", "valid"] := by
  constructor
  · intro rule input sc
    exact unsatisfiedRules_eq_filter _
  · simp [EvaluateDetailed, evaluateRuleDetailed, andDetailedLoop, evaluate,
      New, And, Result.error, Result.satisfied, Result.unsatisfiedRules,
      unsatisfiedRulesList, Result.children]

end TobbstrRules
